import Mathlib

/-!
Taiko: timing and judgment core.

A shallow embedding of `src/main.cpp` (camera transform, beatmap insertion,
`Game::update` judgment, `Editor::update_editor` click and resume logic) with
the properties of its specification stated and proved over it.

Conventions of the embedding.
* `float`, `double` and `std::chrono::duration<double>` values are rationals
  and arithmetic on them is exact, with one exception: the normalized hit
  offset of the press loop, whose sign at the edges of the hit window depends
  on rounding, is computed as the code computes it, each of its three `double`
  operations rounded to the nearest binary64 value (`binary64`). There the
  elapsed time and the note time are the `double` values the program holds.
* `std::vector<T>` is `List T`; an `operator[]` read outside the vector is
  undefined behaviour in the source and is reported as a `Fault`.
* `int` counters that only grow from zero are `Nat`; the score and the editor
  cursor (which starts at `-1`) are `Int`. Wrap-around of `int` is not
  modelled.
* Division is that of the rationals, where `x / 0 = 0`; the statements that
  divide by a variable assume it non-zero or hold whatever the quotient is.
* Drawing, sound and window calls have no effect on the judged state and are
  left out; what they read from the outside world (elapsed time, keys, mouse,
  screen size) is an explicit argument.
-/

namespace Taiko

/-! ## Vectors and the camera -/

/-- Two-component vector (`Vec2` of `vec.h`). -/
structure Vec2 where
  x : ℚ
  y : ℚ
  deriving DecidableEq, Repr

namespace Vec2

/-- Modelled from the spec: `vec.h` is not among the sources; `Vec2 / Vec2`
divides component by component (the camera "normalizes p relative to
(position, bounds)"). -/
def div (a b : Vec2) : Vec2 := ⟨a.x / b.x, a.y / b.y⟩

/-- Modelled from the spec: `vec.h` is not among the sources; `Vec2 + scalar`
adds the scalar to both components (the "unit-square-centered coordinate"). -/
def add_scalar (a : Vec2) (s : ℚ) : Vec2 := ⟨a.x + s, a.y + s⟩

/-- Modelled from the spec: `vec.h` is not among the sources; `Vec2 - Vec2`
subtracts component by component. -/
def sub (a b : Vec2) : Vec2 := ⟨a.x - b.x, a.y - b.y⟩

/-- Modelled from the spec: `vec.h` is not among the sources; `Vec2 + Vec2`
(used by `+=`) adds component by component. -/
def add (a b : Vec2) : Vec2 := ⟨a.x + b.x, a.y + b.y⟩

/-- Modelled from the spec: `vec.h` is not among the sources; `Vec2 * Vec2`
multiplies component by component. -/
def mul (a b : Vec2) : Vec2 := ⟨a.x * b.x, a.y * b.y⟩

/-- Modelled from the spec: `vec.h` is not among the sources; `Vec2 * scalar`
scales both components. -/
def mul_scalar (a : Vec2) (s : ℚ) : Vec2 := ⟨a.x * s, a.y * s⟩

end Vec2

/-- The class `Cam`. -/
structure Cam where
  position : Vec2
  bounds : Vec2
  deriving DecidableEq, Repr

namespace Cam

/-- `Cam::world_to_screen`; `sw`, `sh` are `GetScreenWidth()` and
`GetScreenHeight()`. -/
def world_to_screen (cam : Cam) (sw sh : Int) (pos : Vec2) : Vec2 :=
  let temp : Vec2 := ⟨pos.x - cam.position.x, cam.position.y - pos.y⟩
  let normalized := (temp.div cam.bounds).add_scalar (1 / 2)
  ⟨normalized.x * (sw : ℚ), normalized.y * (sh : ℚ)⟩

/-- `Cam::world_to_screen_scale`. -/
def world_to_screen_scale (cam : Cam) (sh : Int) (length : ℚ) : ℚ :=
  length / cam.bounds.y * (sh : ℚ)

/-- `Cam::screen_to_world`. -/
def screen_to_world (cam : Cam) (sw sh : Int) (pos : Vec2) : Vec2 :=
  let normalized : Vec2 := ⟨pos.x / (sw : ℚ), pos.y / (sh : ℚ)⟩
  let offset := (normalized.sub ⟨1 / 2, 1 / 2⟩).mul cam.bounds
  ⟨offset.x + cam.position.x, cam.position.y - offset.y⟩

end Cam

/-! ## Notes and ordered insertion -/

/-- The enum `NoteType`. -/
inductive NoteType where
  | kat
  | don
  deriving DecidableEq, Repr

/-- The struct `Note`. -/
structure Note where
  time : ℚ
  type : NoteType
  deriving DecidableEq, Repr

/-- The halving loop of `std::upper_bound` over the range `[first, first + len)`
of `xs`; `comp m` is the comparator applied to the searched value and the
element `m`. Each round at least halves `len`, so `fuel = len` rounds suffice.
`middle` always lies inside the range, the `none` branch is never taken when
`first + len ≤ xs.length`. -/
def upper_bound_loop (xs : List Note) (comp : Note → Bool) : Nat → Nat → Nat → Nat
  | 0, first, _ => first
  | fuel + 1, first, len =>
    if len = 0 then first
    else
      let half := len / 2
      let middle := first + half
      match xs[middle]? with
      | none => first
      | some m =>
        if comp m then upper_bound_loop xs comp fuel first half
        else upper_bound_loop xs comp fuel (middle + 1) (len - half - 1)

/-- The index returned by `std::upper_bound(xs.begin(), xs.end(), value, cmp)`,
as `result - xs.begin()`. -/
def upper_bound (xs : List Note) (comp : Note → Bool) : Nat :=
  upper_bound_loop xs comp xs.length 0 xs.length

/-- The function `add_note`: `map.insert(upper_bound(..., note, cmp), note)` with
`cmp(l, r) = l.time < r.time`. -/
def add_note (map : List Note) (note : Note) : List Note :=
  let pos := upper_bound map (fun r => decide (note.time < r.time))
  map.take pos ++ note :: map.drop pos

/-- Non-decreasing `time` order of a beatmap. -/
def time_sorted (map : List Note) : Prop :=
  map.Pairwise (fun a b => a.time ≤ b.time)

/-! ## The game -/

/-- The constant `hit_range` (100 ms), in seconds. -/
def hit_range : ℚ := 1 / 10

/-- Nearest integer of a rational, a tie going to the even neighbour. -/
def round_half_even (x : ℚ) : Int :=
  if x - (⌊x⌋ : ℚ) < 1 / 2 then ⌊x⌋
  else if 1 / 2 < x - (⌊x⌋ : ℚ) then ⌊x⌋ + 1
  else if ⌊x⌋ % 2 = 0 then ⌊x⌋ else ⌊x⌋ + 1

/-- The `double` nearest to `x` (IEEE 754 binary64, round to nearest, ties to
even): 53 significant bits, the spacing is `2 ^ (e - 52)` for
`2 ^ e ≤ |x| < 2 ^ (e + 1)` and `2 ^ (-1074)` below `2 ^ (-1022)`. Overflow
(`|x| ≥ 2 ^ 1024`) is not modelled. -/
def binary64 (x : ℚ) : ℚ :=
  if x = 0 then 0
  else
    let e : Int := max (Int.log 2 |x|) (-1022)
    (round_half_even (x / (2 : ℚ) ^ (e - 52)) : ℚ) * (2 : ℚ) ^ (e - 52)

/-- The value of `(elapsed - map[current_note].time) / hit_range + 0.5` in
the press loop of `Game::update`: a `double` subtraction, a `double` division
by `hit_range.count()` (the `double` nearest to `0.1`) and a `double`
addition. -/
def hit_normalized (elapsed time : ℚ) : ℚ :=
  binary64 (binary64 (binary64 (elapsed - time) / binary64 hit_range) + 1 / 2)

/-- The struct `Particle`. -/
structure Particle where
  position : Vec2
  velocity : Vec2
  scale : ℚ
  type : NoteType
  start : ℚ
  deriving DecidableEq, Repr

/-- The enum `Input`. -/
inductive Input where
  | don_left
  | don_right
  | kat_left
  | kat_right
  deriving DecidableEq, Repr

/-- The struct `InputRecord`. -/
structure InputRecord where
  type : Input
  time : ℚ
  deriving DecidableEq, Repr

/-- The judged fields of the class `Game`. -/
structure Game where
  cam : Cam
  map : List Note
  current_note : Nat
  particles : List Particle
  score : Int
  inputs : List InputRecord
  deriving DecidableEq, Repr

/-- A read `map[index]` with `index` outside the vector, by the place of the
read in `Game::update`: the press loop (line 213) or the expiry test
(line 224). -/
inductive Fault where
  | press_read (index : Nat)
  | expiry_read (index : Nat)
  deriving DecidableEq, Repr

/-- What `IsKeyPressed` answers in one frame for the four drum keys. -/
structure Keys where
  key_x : Bool
  key_period : Bool
  key_z : Bool
  key_slash : Bool
  deriving DecidableEq, Repr

/-- One call of `Game::update`: the elapsed time read from the clock, the keys
and the `delta_time` argument. -/
structure Frame where
  elapsed : ℚ
  keys : Keys
  delta_time : ℚ
  deriving DecidableEq, Repr

/-- The map built by the constructor `Game::Game()`: a hundred `don` notes at
`(0.2371 / 2) * i + 0.4743` seconds. -/
def Game.constructor_map : List Note :=
  (List.range 100).map
    (fun (i : Nat) => ⟨(2371 / 10000 / 2) * (i : ℚ) + 4743 / 10000, NoteType.don⟩)

/-- A freshly constructed game over the map `map` (member initialisers of
`Game`). -/
def Game.fresh (map : List Note) : Game :=
  { cam := ⟨⟨0, 0⟩, ⟨4, 3⟩⟩, map := map, current_note := 0, particles := [], score := 0,
    inputs := [] }

/-- The four `IsKeyPressed` blocks of `Game::update`: the input log and the
`pressed` vector after them. -/
def read_keys (inputs : List InputRecord) (elapsed : ℚ) (k : Keys) :
    List InputRecord × List NoteType :=
  let s0 : List InputRecord × List NoteType := (inputs, [])
  let s1 := if k.key_x then (s0.1 ++ [⟨Input.don_left, elapsed⟩], s0.2 ++ [NoteType.don]) else s0
  let s2 := if k.key_period then (s1.1 ++ [⟨Input.don_right, elapsed⟩], s1.2 ++ [NoteType.don])
    else s1
  let s3 := if k.key_z then (s2.1 ++ [⟨Input.kat_left, elapsed⟩], s2.2 ++ [NoteType.kat]) else s2
  if k.key_slash then (s3.1 ++ [⟨Input.kat_right, elapsed⟩], s3.2 ++ [NoteType.kat]) else s3

/-- The body of the press loop of `Game::update` for one pressed type. -/
def press_step (elapsed : ℚ) (g : Game) (note : NoteType) : Except Fault Game :=
  match g.map[g.current_note]? with
  | none => .error (.press_read g.current_note)
  | some cur =>
    if 0 ≤ hit_normalized elapsed cur.time ∧ hit_normalized elapsed cur.time < 1 then
      if cur.type = note then
        .ok { g with score := g.score + 300, current_note := g.current_note + 1 }
      else .ok g
    else .ok g

/-- The press loop `for (auto& note : pressed)` of `Game::update`. -/
def press_loop (elapsed : ℚ) : Game → List NoteType → Except Fault Game
  | g, [] => .ok g
  | g, note :: rest =>
    match press_step elapsed g note with
    | .error f => .error f
    | .ok g1 => press_loop elapsed g1 rest

/-- The expiry test of `Game::update` (lines 224 to 228). -/
def expiry (elapsed : ℚ) (g : Game) : Except Fault Game :=
  match g.map[g.current_note]? with
  | none => .error (.expiry_read g.current_note)
  | some cur =>
    if elapsed > cur.time - hit_range / 2 then
      .ok { g with
        particles := g.particles ++ [⟨⟨elapsed, 0⟩, ⟨0, 1⟩, 1, cur.type, elapsed⟩],
        current_note := g.current_note + 1 }
    else .ok g

/-- The guarded block `if (current_note < map.size()) { ... }` of
`Game::update`. -/
def judge (elapsed : ℚ) (pressed : List NoteType) (g : Game) : Except Fault Game :=
  if g.current_note < g.map.length then
    match press_loop elapsed g pressed with
    | .error f => .error f
    | .ok g1 => expiry elapsed g1
  else .ok g

/-- The particle loop of `Game::update`, `i + 1` being the number of indices
still to visit: the body runs at index `i`, moves the particle and erases it
when its age exceeds one second. -/
def particle_loop (elapsed delta_time : ℚ) : Nat → List Particle → List Particle
  | 0, ps => ps
  | i + 1, ps =>
    match ps[i]? with
    | none => particle_loop elapsed delta_time i ps
    | some p =>
      let p1 : Particle := { p with position := p.position.add (p.velocity.mul_scalar delta_time) }
      let ps1 := ps.set i p1
      let ps2 := if elapsed - p1.start > 1 then ps1.eraseIdx i else ps1
      particle_loop elapsed delta_time i ps2

/-- The particle pass of `Game::update`: `for (int i = size - 1; i >= 0; i--)`. -/
def particle_pass (elapsed delta_time : ℚ) (ps : List Particle) : List Particle :=
  particle_loop elapsed delta_time ps.length ps

/-- The state part of `Game::update`. -/
def Game.update (g : Game) (f : Frame) : Except Fault Game :=
  let r := read_keys g.inputs f.elapsed f.keys
  match judge f.elapsed r.2 { g with inputs := r.1 } with
  | .error e => .error e
  | .ok g1 =>
    .ok { g1 with
      cam := { g1.cam with position := ⟨f.elapsed, g1.cam.position.y⟩ },
      particles := particle_pass f.elapsed f.delta_time g1.particles }

/-- Successive calls of `Game::update`, one per frame. -/
def Game.run : Game → List Frame → Except Fault Game
  | g, [] => .ok g
  | g, f :: rest =>
    match g.update f with
    | .error e => .error e
    | .ok g1 => Game.run g1 rest

/-! ## The editor -/

/-- The state fields of the class `Editor`. -/
structure Editor where
  cam : Cam
  note_type : NoteType
  map : List Note
  offset : ℚ
  bpm : ℚ
  quarter_interval : ℚ
  collision_range : ℚ
  paused : Bool
  current_note : Int
  deriving DecidableEq, Repr

/-- What one call of `Editor::update_editor` reads from the outside. -/
structure EditorFrame where
  elapsed : ℚ
  mouse_pressed : Bool
  mouse_x : Int
  mouse_y : Int
  screen_width : Int
  screen_height : Int
  key_r : Bool
  key_space : Bool
  deriving DecidableEq, Repr

/-- The editor after its member initialisers and `Editor::init`; `note_type`
has no initialiser in the source. -/
def Editor.fresh (note_type : NoteType) : Editor :=
  { cam := ⟨⟨0, 0⟩, ⟨2, 3⟩⟩, note_type := note_type, map := [], offset := 994 / 1000,
    bpm := 253, quarter_interval := 60 / 253 / 4, collision_range := 60 / 253 / 4 / 2,
    paused := true, current_note := -1 }

/-- The function `std::round`: nearest integer, halves away from zero. -/
def c_round (x : ℚ) : Int :=
  if 0 ≤ x then ⌊x + 1 / 2⌋ else ⌈x - 1 / 2⌉

/-- The collision scan of the click handler (lines 404 to 412). -/
def collision (map : List Note) (time collision_range : ℚ) : Bool :=
  match map with
  | [] => false
  | n :: rest => if |n.time - time| < collision_range then true
    else collision rest time collision_range

/-- The snapped candidate time of a click (lines 399 to 402). -/
def Editor.snap (e : Editor) (f : EditorFrame) : ℚ :=
  let cursor_pos := e.cam.screen_to_world f.screen_width f.screen_height
    ⟨(f.mouse_x : ℚ), (f.mouse_y : ℚ)⟩
  let i := c_round ((cursor_pos.x - e.offset) / e.quarter_interval)
  e.offset + (i : ℚ) * e.quarter_interval

/-- The rest of the click handler for the candidate `time` (lines 404 to 420). -/
def Editor.place (e : Editor) (time elapsed : ℚ) : Editor :=
  if collision e.map time e.collision_range then e
  else
    let e1 := { e with map := add_note e.map ⟨time, e.note_type⟩ }
    if time < elapsed then { e1 with current_note := e1.current_note + 1 } else e1

/-- The block `if (IsMouseButtonPressed(0)) { ... }`. -/
def Editor.click (e : Editor) (f : EditorFrame) : Editor :=
  if f.mouse_pressed then e.place (e.snap f) f.elapsed else e

/-- The block `if (IsKeyPressed(KEY_R)) { ... }`. -/
def Editor.toggle_type (e : Editor) (f : EditorFrame) : Editor :=
  if f.key_r then
    if e.note_type = NoteType.don then { e with note_type := NoteType.kat }
    else { e with note_type := NoteType.don }
  else e

/-- The block `if (IsKeyPressed(KEY_SPACE)) { ... }`. -/
def Editor.toggle_pause (e : Editor) (f : EditorFrame) : Editor :=
  if f.key_space then
    let e1 := if e.paused then
        { e with current_note := (upper_bound e.map (fun n => decide (f.elapsed < n.time)) : Int) }
      else e
    { e1 with paused := !e1.paused }
  else e

/-- The audition block (lines 444 to 452). `current_note < map.size()` compares
as unsigned, so a negative cursor fails the test. -/
def Editor.audition (e : Editor) (f : EditorFrame) : Editor :=
  if !e.paused ∧ 0 ≤ e.current_note ∧ e.current_note.toNat < e.map.length then
    match e.map[e.current_note.toNat]? with
    | none => e
    | some n => if f.elapsed ≥ n.time then { e with current_note := e.current_note + 1 } else e
  else e

/-- The state part of `Editor::update_editor`. Seeking (key `A`, mouse wheel)
acts on the music stream only. -/
def Editor.update_editor (e : Editor) (f : EditorFrame) : Editor :=
  let e1 := e.click f
  let e2 := e1.toggle_type f
  let e3 := e2.toggle_pause f
  let e4 := e3.audition f
  { e4 with cam := { e4.cam with position := ⟨f.elapsed, e4.cam.position.y⟩ } }

/-! ## Properties -/

/-- C1: for a camera with non-zero `bounds.x` and `bounds.y` and a non-zero
screen width and height, `screen_to_world (world_to_screen p) = p` for every
world point `p`, the arithmetic being exact. -/
theorem screen_to_world_world_to_screen (cam : Cam) (sw sh : Int) (p : Vec2)
    (hbx : cam.bounds.x ≠ 0) (hby : cam.bounds.y ≠ 0) (hsw : sw ≠ 0) (hsh : sh ≠ 0) :
    cam.screen_to_world sw sh (cam.world_to_screen sw sh p) = p := by
  have hw : (sw : ℚ) ≠ 0 := by exact_mod_cast hsw
  have hh : (sh : ℚ) ≠ 0 := by exact_mod_cast hsh
  obtain ⟨px, py⟩ := p
  simp only [Cam.screen_to_world, Cam.world_to_screen, Vec2.div, Vec2.add_scalar, Vec2.sub,
    Vec2.mul, Vec2.mk.injEq]
  constructor
  · field_simp
    ring
  · field_simp
    ring

/-- The round trip at the game camera `{{0,0},{4,3}}` on a 1280 x 960 screen. -/
theorem screen_to_world_world_to_screen_witness :
    (⟨⟨0, 0⟩, ⟨4, 3⟩⟩ : Cam).screen_to_world 1280 960
      ((⟨⟨0, 0⟩, ⟨4, 3⟩⟩ : Cam).world_to_screen 1280 960 ⟨7 / 10, -1 / 4⟩) = ⟨7 / 10, -1 / 4⟩ :=
  screen_to_world_world_to_screen ⟨⟨0, 0⟩, ⟨4, 3⟩⟩ 1280 960 ⟨7 / 10, -1 / 4⟩
    (by norm_num) (by norm_num) (by norm_num) (by norm_num)

/-- The loop of `upper_bound` stays inside the range it is given. -/
theorem upper_bound_loop_range (xs : List Note) (comp : Note → Bool) (fuel first len : Nat) :
    first ≤ upper_bound_loop xs comp fuel first len ∧
      upper_bound_loop xs comp fuel first len ≤ first + len := by
  induction fuel generalizing first len with
  | zero => simp [upper_bound_loop]
  | succ k ih =>
    unfold upper_bound_loop
    by_cases hl : len = 0
    · simp [hl]
    · simp only [hl, if_false]
      cases hm : xs[first + len / 2]? with
      | none => simp
      | some m =>
        have hhalf : len / 2 < len := Nat.div_lt_self (Nat.pos_of_ne_zero hl) (by decide)
        by_cases hc : comp m = true
        · simp only [hc, if_true]
          have h := ih first (len / 2)
          omega
        · simp only [hc]
          have h := ih (first + len / 2 + 1) (len - len / 2 - 1)
          simp only [Bool.false_eq_true, if_false]
          omega

/-- The index found by `upper_bound` is a position of the vector. -/
theorem upper_bound_le_length (xs : List Note) (comp : Note → Bool) :
    upper_bound xs comp ≤ xs.length := by
  have h := (upper_bound_loop_range xs comp xs.length 0 xs.length).2
  simpa [upper_bound] using h

/-- On a range partitioned by `comp` (false, then true) the loop of
`upper_bound` returns the partition point. -/
theorem upper_bound_loop_partition (xs : List Note) (comp : Note → Bool)
    (hmono : ∀ (i j : Nat) (x y : Note), i ≤ j → xs[i]? = some x → xs[j]? = some y → comp x = true →
      comp y = true)
    (fuel first len : Nat) (hfuel : len ≤ fuel) (hlen : first + len ≤ xs.length)
    (hlo : ∀ (i : Nat) (x : Note), i < first → xs[i]? = some x → comp x = false)
    (hhi : ∀ (i : Nat) (x : Note), first + len ≤ i → xs[i]? = some x → comp x = true) :
    (∀ (i : Nat) (x : Note), i < upper_bound_loop xs comp fuel first len → xs[i]? = some x → comp x = false) ∧
      (∀ (i : Nat) (x : Note), upper_bound_loop xs comp fuel first len ≤ i → xs[i]? = some x →
        comp x = true) := by
  induction fuel generalizing first len with
  | zero =>
    have h0 : len = 0 := by omega
    subst h0
    simpa [upper_bound_loop] using And.intro hlo hhi
  | succ k ih =>
    unfold upper_bound_loop
    by_cases hl : len = 0
    · subst hl
      simpa using And.intro hlo hhi
    · simp only [hl, if_false]
      have hhalf : len / 2 < len := Nat.div_lt_self (Nat.pos_of_ne_zero hl) (by decide)
      have hmid : first + len / 2 < xs.length := by omega
      cases hm : xs[first + len / 2]? with
      | none =>
        rw [List.getElem?_eq_none_iff] at hm
        omega
      | some m =>
        by_cases hc : comp m = true
        · simp only [hc, if_true]
          apply ih first (len / 2) (by omega) (by omega) hlo
          intro i x hi hx
          exact hmono (first + len / 2) i m x hi hm hx hc
        · simp only [hc, Bool.false_eq_true, if_false]
          apply ih (first + len / 2 + 1) (len - len / 2 - 1) (by omega) (by omega)
          · intro i x hi hx
            cases hcx : comp x with
            | false => rfl
            | true =>
              exact absurd (hmono i (first + len / 2) x m (by omega) hx hm hcx) hc
          · intro i x hi hx
            exact hhi i x (by omega) hx
/-- On a vector partitioned by `comp` everything before the index found by
`upper_bound` fails `comp` and everything from it on satisfies `comp`. -/
theorem upper_bound_partition (xs : List Note) (comp : Note → Bool)
    (hpart : xs.Pairwise (fun a b => comp a = true → comp b = true)) :
    (∀ x ∈ xs.take (upper_bound xs comp), comp x = false) ∧
      (∀ x ∈ xs.drop (upper_bound xs comp), comp x = true) := by
  have hmono : ∀ (i j : Nat) (x y : Note), i ≤ j → xs[i]? = some x → xs[j]? = some y →
      comp x = true → comp y = true := by
    intro i j x y hij hx hy hc
    rcases Nat.eq_or_lt_of_le hij with h | h
    · subst h
      rw [hx] at hy
      cases hy
      exact hc
    · obtain ⟨hi, rfl⟩ := List.getElem?_eq_some_iff.mp hx
      obtain ⟨hj, rfl⟩ := List.getElem?_eq_some_iff.mp hy
      exact List.pairwise_iff_getElem.mp hpart i j hi hj h hc
  have h := upper_bound_loop_partition xs comp hmono xs.length 0 xs.length (Nat.le_refl _)
    (by simp) (by intro i x hi; omega)
    (by
      intro i x hi hx
      have := (List.getElem?_eq_some_iff.mp hx).1
      omega)
  constructor
  · intro x hx
    obtain ⟨i, hi, rfl⟩ := List.mem_take_iff_getElem.mp hx
    have hi2 : i < upper_bound xs comp := (Nat.lt_min.mp hi).1
    exact h.1 i _ hi2 (List.getElem?_eq_getElem (Nat.lt_min.mp hi).2)
  · intro x hx
    obtain ⟨i, hi, rfl⟩ := List.mem_drop_iff_getElem.mp hx
    exact h.2 (upper_bound xs comp + i) _ (Nat.le_add_right _ _)
      (List.getElem?_eq_getElem (by omega))

/-- A time-sorted map is partitioned by "`t` is before the note". -/
theorem time_sorted_partition (map : List Note) (t : ℚ) (h : time_sorted map) :
    map.Pairwise (fun a b => decide (t < a.time) = true → decide (t < b.time) = true) := by
  refine List.Pairwise.imp ?_ h
  intro a b hab hta
  simp only [decide_eq_true_eq] at hta ⊢
  exact lt_of_lt_of_le hta hab

/-- `add_note` inserts the note somewhere: the result is a permutation of the
note followed by the old map. -/
theorem add_note_perm (map : List Note) (n : Note) : (add_note map n).Perm (n :: map) := by
  unfold add_note
  have h := @List.perm_middle _ n (map.take (upper_bound map fun r => decide (n.time < r.time)))
    (map.drop (upper_bound map fun r => decide (n.time < r.time)))
  simpa [List.take_append_drop] using h

/-- `add_note` makes the map one note longer. -/
theorem add_note_length (map : List Note) (n : Note) :
    (add_note map n).length = map.length + 1 := by
  simpa using (add_note_perm map n).length_eq

/-- On a time-sorted map `add_note` splits the map into the notes not after
`n` and the notes strictly after `n`, and puts `n` between them. -/
theorem add_note_split (map : List Note) (n : Note) (h : time_sorted map) :
    ∃ pre post, map = pre ++ post ∧ add_note map n = pre ++ n :: post ∧
      (∀ x ∈ pre, x.time ≤ n.time) ∧ (∀ x ∈ post, n.time < x.time) := by
  have hp := upper_bound_partition map (fun r => decide (n.time < r.time))
    (time_sorted_partition map n.time h)
  refine ⟨map.take (upper_bound map fun r => decide (n.time < r.time)),
    map.drop (upper_bound map fun r => decide (n.time < r.time)),
    (List.take_append_drop _ _).symm, rfl, ?_, ?_⟩
  · intro x hx
    have := hp.1 x hx
    simpa using this
  · intro x hx
    have := hp.2 x hx
    simpa using this

/-- `add_note` keeps a time-sorted map time-sorted. -/
theorem add_note_sorted (map : List Note) (n : Note) (h : time_sorted map) :
    time_sorted (add_note map n) := by
  obtain ⟨pre, post, hmap, hadd, hpre, hpost⟩ := add_note_split map n h
  subst hmap
  rw [hadd]
  unfold time_sorted at h ⊢
  rw [List.pairwise_append] at h ⊢
  obtain ⟨h1, h2, h3⟩ := h
  refine ⟨h1, List.pairwise_cons.mpr ⟨fun b hb => le_of_lt (hpost b hb), h2⟩, ?_⟩
  intro a ha b hb
  rcases List.mem_cons.mp hb with rfl | hb
  · exact hpre a ha
  · exact h3 a ha b hb
/-- When every note of `pre` passes `p` and no note of `post` does,
`takeWhile` and `dropWhile` cut `pre ++ post` between the two. -/
theorem takeWhile_dropWhile_split (p : Note → Bool) (pre post : List Note)
    (hpre : ∀ x ∈ pre, p x = true) (hpost : ∀ x ∈ post, p x = false) :
    (pre ++ post).takeWhile p = pre ∧ (pre ++ post).dropWhile p = post := by
  rw [List.takeWhile_append_of_pos hpre, List.dropWhile_append_of_pos hpre]
  cases post with
  | nil => simp
  | cons a rest =>
    have ha := hpost a (List.mem_cons_self a rest)
    simp [List.takeWhile_cons, List.dropWhile_cons, ha]

/-- C2: on a map in non-decreasing time order, `add_note` gives a map that is
again in non-decreasing time order, is exactly one note longer, and holds the
new note together with every note of the old map (it is a permutation of the
new note put in front of the old map). -/
theorem add_note_keeps_time_order (map : List Note) (n : Note) (h : time_sorted map) :
    time_sorted (add_note map n) ∧ (add_note map n).length = map.length + 1 ∧
      n ∈ add_note map n ∧ (∀ x ∈ map, x ∈ add_note map n) ∧
      (add_note map n).Perm (n :: map) := by
  have hp := add_note_perm map n
  refine ⟨add_note_sorted map n h, add_note_length map n, ?_, ?_, hp⟩
  · exact hp.symm.subset (List.mem_cons_self n map)
  · intro x hx
    exact hp.symm.subset (List.mem_cons_of_mem n hx)

/-- C2 at the map `[0.2 don, 0.5 don]` and the note `0.2 kat`. -/
theorem add_note_keeps_time_order_witness :
    time_sorted (add_note [⟨1 / 5, .don⟩, ⟨1 / 2, .don⟩] ⟨1 / 5, .kat⟩) ∧
      (add_note [⟨1 / 5, .don⟩, ⟨1 / 2, .don⟩] ⟨1 / 5, .kat⟩).length = 3 :=
  have h := add_note_keeps_time_order [⟨1 / 5, .don⟩, ⟨1 / 2, .don⟩] ⟨1 / 5, .kat⟩
    (by norm_num [time_sorted])
  ⟨h.1, h.2.1⟩

/-- C3: on a time-sorted map `add_note` puts the note right before the first
note whose time is strictly greater (at the end when there is none): the notes
in front of it are those of the longest prefix with `time ≤ n.time`, so it
comes after every note of equal time, and the notes behind it all have a
strictly greater time. Inserting the times `0.5, 0.2, 0.8, 0.2` in that order
into the empty map stores `0.2, 0.2, 0.5, 0.8`, the `0.2` inserted last (the
`kat`) second. -/
theorem add_note_after_equal_times (map : List Note) (n : Note) (h : time_sorted map) :
    add_note map n = map.takeWhile (fun x => decide (x.time ≤ n.time)) ++
        n :: map.dropWhile (fun x => decide (x.time ≤ n.time)) ∧
      (∀ x ∈ map.takeWhile (fun x => decide (x.time ≤ n.time)), x.time ≤ n.time) ∧
      (∀ x ∈ map.dropWhile (fun x => decide (x.time ≤ n.time)), n.time < x.time) ∧
      add_note (add_note (add_note (add_note [] ⟨1 / 2, .don⟩) ⟨1 / 5, .don⟩) ⟨4 / 5, .don⟩)
          ⟨1 / 5, .kat⟩ =
        [⟨1 / 5, .don⟩, ⟨1 / 5, .kat⟩, ⟨1 / 2, .don⟩, ⟨4 / 5, .don⟩] := by
  obtain ⟨pre, post, hmap, hadd, hpre, hpost⟩ := add_note_split map n h
  have hs := takeWhile_dropWhile_split (fun x => decide (x.time ≤ n.time)) pre post
    (by intro x hx; simpa using hpre x hx)
    (by intro x hx; simpa using hpost x hx)
  rw [← hmap] at hs
  rw [hs.1, hs.2]
  refine ⟨hadd, hpre, hpost, ?_⟩
  norm_num [add_note, upper_bound, upper_bound_loop]

/-- C3 at the last insertion of the example: `0.2 kat` into
`[0.2 don, 0.5 don, 0.8 don]`. -/
theorem add_note_after_equal_times_witness :
    add_note [⟨1 / 5, .don⟩, ⟨1 / 2, .don⟩, ⟨4 / 5, .don⟩] ⟨1 / 5, .kat⟩ =
      [⟨1 / 5, .don⟩, ⟨1 / 5, .kat⟩, ⟨1 / 2, .don⟩, ⟨4 / 5, .don⟩] := by
  have h := (add_note_after_equal_times [⟨1 / 5, .don⟩, ⟨1 / 2, .don⟩, ⟨4 / 5, .don⟩]
    ⟨1 / 5, .kat⟩ (by norm_num [time_sorted])).1
  rw [h]
  norm_num [List.takeWhile, List.dropWhile]

/-- The rule `round_half_even` on a rational less than a half away from an
integer. -/
theorem round_half_even_eq (x : ℚ) (n : ℤ) (h1 : (n : ℚ) - 1 / 2 < x)
    (h2 : x < (n : ℚ) + 1 / 2) : round_half_even x = n := by
  unfold round_half_even
  by_cases hx : (n : ℚ) ≤ x
  · have hf : ⌊x⌋ = n := by
      rw [Int.floor_eq_iff]
      constructor <;> linarith
    rw [hf, if_pos (by linarith)]
  · have hx2 : x < n := not_le.mp hx
    have hf : ⌊x⌋ = n - 1 := by
      rw [Int.floor_eq_iff]
      push_cast
      constructor <;> linarith
    rw [hf]
    push_cast
    rw [if_neg (by linarith), if_pos (by linarith)]
    ring

/-- The value of `binary64` from the binade of `x`: with `2 ^ (k + 52) ≤ |x| <
2 ^ (k + 53)` the spacing is `2 ^ k`, and `x` goes to the multiple of it less
than half a spacing away. -/
theorem binary64_eq (x : ℚ) (k n : ℤ) (hk : -1074 ≤ k) (hlo : (2 : ℚ) ^ (k + 52) ≤ |x|)
    (hhi : |x| < (2 : ℚ) ^ (k + 52 + 1)) (h1 : (n : ℚ) - 1 / 2 < x / (2 : ℚ) ^ k)
    (h2 : x / (2 : ℚ) ^ k < (n : ℚ) + 1 / 2) :
    binary64 x = (n : ℚ) * (2 : ℚ) ^ k := by
  have hpos : 0 < |x| := lt_of_lt_of_le (zpow_pos (by norm_num) _) hlo
  have hx : x ≠ 0 := abs_pos.mp hpos
  have hlog : Int.log 2 |x| = k + 52 := by
    apply le_antisymm
    · have h := (Int.lt_zpow_iff_log_lt (by norm_num : 1 < 2) hpos).mp
        (show |x| < ((2 : ℕ) : ℚ) ^ (k + 52 + 1) by simpa using hhi)
      omega
    · exact (Int.zpow_le_iff_le_log (by norm_num : 1 < 2) hpos).mp
        (show ((2 : ℕ) : ℚ) ^ (k + 52) ≤ |x| by simpa using hlo)
  unfold binary64
  rw [if_neg hx]
  simp only [hlog]
  have hmax : max (k + 52) (-1022) - 52 = k := by
    rw [max_eq_left (by omega)]
    ring
  rw [hmax, round_half_even_eq _ n h1 h2]

/-- The rule `binary64_eq` for a positive `x`. -/
theorem binary64_eq_pos (x : ℚ) (k n : ℤ) (hk : -1074 ≤ k) (hlo : (2 : ℚ) ^ (k + 52) ≤ x)
    (hhi : x < (2 : ℚ) ^ (k + 52 + 1)) (h1 : (n : ℚ) - 1 / 2 < x / (2 : ℚ) ^ k)
    (h2 : x / (2 : ℚ) ^ k < (n : ℚ) + 1 / 2) :
    binary64 x = (n : ℚ) * (2 : ℚ) ^ k := by
  have hpos : 0 < x := lt_of_lt_of_le (zpow_pos (by norm_num) _) hlo
  rw [← abs_of_pos hpos] at hlo hhi
  exact binary64_eq x k n hk hlo hhi h1 h2

/-- A press at the very time of the note has the normalized offset `0.5`: the
three operations are exact there. -/
theorem hit_normalized_self (t : ℚ) : hit_normalized t t = 1 / 2 := by
  unfold hit_normalized
  have h0 : binary64 0 = 0 := by simp [binary64]
  rw [sub_self, h0, zero_div, h0, zero_add]
  rw [binary64_eq_pos _ (-53) 4503599627370496 (by norm_num) (by norm_num) (by norm_num)
    (by norm_num) (by norm_num)]
  norm_num

/-- One round of the press loop on an in-range cursor: a hit (score plus 300,
cursor plus one) when the type matches and the normalized offset lies in
`[0, 1)`, no change otherwise. -/
theorem press_step_eq (elapsed : ℚ) (g : Game) (ty : NoteType) (note : Note)
    (hcur : g.map[g.current_note]? = some note) :
    press_step elapsed g ty =
      if ty = note.type ∧ 0 ≤ hit_normalized elapsed note.time ∧
          hit_normalized elapsed note.time < 1 then
        .ok { g with score := g.score + 300, current_note := g.current_note + 1 }
      else .ok g := by
  unfold press_step
  simp only [hcur]
  by_cases hw : 0 ≤ hit_normalized elapsed note.time ∧ hit_normalized elapsed note.time < 1
  · rw [if_pos hw]
    by_cases ht : note.type = ty
    · rw [if_pos ht, if_pos ⟨ht.symm, hw⟩]
    · rw [if_neg ht, if_neg (fun h => ht h.1.symm)]
  · rw [if_neg hw, if_neg (fun h => hw h.2)]

/-- The press loop over a single press is one round of its body. -/
theorem press_loop_single (elapsed : ℚ) (g : Game) (ty : NoteType) (note : Note)
    (hcur : g.map[g.current_note]? = some note) :
    press_loop elapsed g [ty] =
      if ty = note.type ∧ 0 ≤ hit_normalized elapsed note.time ∧
          hit_normalized elapsed note.time < 1 then
        .ok { g with score := g.score + 300, current_note := g.current_note + 1 }
      else .ok g := by
  have h := press_step_eq elapsed g ty note hcur
  unfold press_loop
  rw [h]
  by_cases hc : ty = note.type ∧ 0 ≤ hit_normalized elapsed note.time ∧
      hit_normalized elapsed note.time < 1
  · rw [if_pos hc]
    rfl
  · rw [if_neg hc]
    rfl

/-- The particle loop over the indices below `i` leaves what lies behind the
first `ps.length ≥ i` particles alone. -/
theorem particle_loop_append (elapsed delta_time : ℚ) (i : Nat) (ps qs : List Particle)
    (hi : i ≤ ps.length) :
    particle_loop elapsed delta_time i (ps ++ qs) =
      particle_loop elapsed delta_time i ps ++ qs := by
  induction i generalizing ps with
  | zero => simp [particle_loop]
  | succ k ih =>
    have hk : k < ps.length := hi
    unfold particle_loop
    rw [List.getElem?_append_left hk, List.getElem?_eq_getElem hk]
    simp only
    rw [List.set_append_left _ _ hk]
    by_cases hage : elapsed - ps[k].start > 1
    · rw [if_pos hage, if_pos hage,
        List.eraseIdx_append_of_lt_length (by rw [List.length_set]; exact hk)]
      apply ih
      rw [List.length_eraseIdx_of_lt (by rw [List.length_set]; exact hk), List.length_set]
      omega
    · rw [if_neg hage, if_neg hage]
      apply ih
      rw [List.length_set]
      omega

/-- The particle pass keeps a particle spawned in the same frame, moved by its
velocity, behind what it leaves of the older particles. -/
theorem particle_pass_spawned (elapsed delta_time : ℚ) (ps : List Particle) (ty : NoteType) :
    particle_pass elapsed delta_time (ps ++ [⟨⟨elapsed, 0⟩, ⟨0, 1⟩, 1, ty, elapsed⟩]) =
      particle_pass elapsed delta_time ps ++
        [⟨⟨elapsed, delta_time⟩, ⟨0, 1⟩, 1, ty, elapsed⟩] := by
  unfold particle_pass
  rw [List.length_append, List.length_singleton, particle_loop]
  rw [List.getElem?_append_right (Nat.le_refl _)]
  simp only [Nat.sub_self, List.getElem?_cons_zero, sub_self]
  rw [if_neg (by norm_num), List.set_append_right _ _ (Nat.le_refl _)]
  simp only [Nat.sub_self, List.set_cons_zero]
  rw [particle_loop_append _ _ _ _ _ (Nat.le_refl _)]
  simp [Vec2.add, Vec2.mul_scalar]

/-- A frame without pressed keys leaves the input log alone and presses
nothing. -/
theorem read_keys_none (inputs : List InputRecord) (elapsed : ℚ) :
    read_keys inputs elapsed ⟨false, false, false, false⟩ = (inputs, []) := by
  simp [read_keys]

/-- The guarded block with the cursor on a note and nothing pressed is the
expiry test alone. -/
theorem judge_no_press (elapsed : ℚ) (g : Game) (note : Note)
    (hcur : g.map[g.current_note]? = some note) :
    judge elapsed [] g =
      if elapsed > note.time - hit_range / 2 then
        .ok { g with
          particles := g.particles ++ [⟨⟨elapsed, 0⟩, ⟨0, 1⟩, 1, note.type, elapsed⟩],
          current_note := g.current_note + 1 }
      else .ok g := by
  have hlt : g.current_note < g.map.length := (List.getElem?_eq_some_iff.mp hcur).1
  unfold judge
  rw [if_pos hlt]
  simp only [press_loop, expiry, hcur]

/-- C7: with the cursor on a note and no key pressed in the frame,
`Game::update` advances `current_note` by exactly one and spawns exactly one
particle, of the note's type and with `start = elapsed` (after the particle
pass it is the last particle, moved by `delta_time`), when
`elapsed > note.time - hit_range / 2`; otherwise it leaves `current_note`
unchanged and spawns nothing. For a note at `1.0` the threshold is `0.95`. -/
theorem no_press_expiry (g : Game) (f : Frame) (note : Note)
    (hcur : g.map[g.current_note]? = some note)
    (hkeys : f.keys = ⟨false, false, false, false⟩) :
    (1 : ℚ) - hit_range / 2 = 95 / 100 ∧
      (f.elapsed > note.time - hit_range / 2 →
        judge f.elapsed [] g = .ok { g with
            particles := g.particles ++ [⟨⟨f.elapsed, 0⟩, ⟨0, 1⟩, 1, note.type, f.elapsed⟩],
            current_note := g.current_note + 1 } ∧
          ∃ g1, g.update f = .ok g1 ∧ g1.current_note = g.current_note + 1 ∧
            g1.particles = particle_pass f.elapsed f.delta_time g.particles ++
              [⟨⟨f.elapsed, f.delta_time⟩, ⟨0, 1⟩, 1, note.type, f.elapsed⟩]) ∧
      (¬ f.elapsed > note.time - hit_range / 2 →
        judge f.elapsed [] g = .ok g ∧
          ∃ g1, g.update f = .ok g1 ∧ g1.current_note = g.current_note ∧
            g1.particles = particle_pass f.elapsed f.delta_time g.particles) := by
  have hj := judge_no_press f.elapsed g note hcur
  have hg : ({ g with inputs := g.inputs } : Game) = g := rfl
  refine ⟨by norm_num [hit_range], ?_, ?_⟩
  · intro h
    rw [if_pos h] at hj
    refine ⟨hj, ?_⟩
    unfold Game.update
    rw [hkeys, read_keys_none]
    simp only [hg, hj]
    exact ⟨_, rfl, rfl, particle_pass_spawned _ _ _ _⟩
  · intro h
    rw [if_neg h] at hj
    refine ⟨hj, ?_⟩
    unfold Game.update
    rw [hkeys, read_keys_none]
    simp only [hg, hj]
    exact ⟨_, rfl, rfl, rfl⟩

/-- C7 at a fresh game over `[don at 1.0]`, no key, `elapsed = 0.96`. -/
theorem no_press_expiry_witness :
    ∃ g1, (Game.fresh [⟨1, .don⟩]).update ⟨96 / 100, ⟨false, false, false, false⟩, 1 / 60⟩ =
        .ok g1 ∧ g1.current_note = 1 ∧
      g1.particles = [⟨⟨96 / 100, 1 / 60⟩, ⟨0, 1⟩, 1, .don, 96 / 100⟩] := by
  have h := (no_press_expiry (Game.fresh [⟨1, .don⟩])
    ⟨96 / 100, ⟨false, false, false, false⟩, 1 / 60⟩ ⟨1, .don⟩ rfl rfl).2.1
    (by norm_num [hit_range])
  obtain ⟨g1, h1, h2, h3⟩ := h.2
  exact ⟨g1, h1, h2, by simpa [Game.fresh, particle_pass, particle_loop] using h3⟩

/-- C6 as stated fails: on a `don` note at `1.0`, a frame at `elapsed = 1.0`
whose only press is a `kat` leaves the score alone, but `current_note` after
`Game::update` is not what it was before. -/
theorem mismatched_press_cursor_moves :
    ∃ g1, (Game.fresh [⟨1, .don⟩]).update ⟨1, ⟨false, false, true, false⟩, 1 / 60⟩ = .ok g1 ∧
      g1.score = (Game.fresh [⟨1, .don⟩]).score ∧
      g1.current_note ≠ (Game.fresh [⟨1, .don⟩]).current_note := by
  refine ⟨{ Game.fresh [⟨1, .don⟩] with
    cam := ⟨⟨1, 0⟩, ⟨4, 3⟩⟩, current_note := 1, inputs := [⟨.kat_left, 1⟩],
    particles := [⟨⟨1, 1 / 60⟩, ⟨0, 1⟩, 1, .don, 1⟩] }, ?_, rfl, by decide⟩
  have hne : (NoteType.don = NoteType.kat) = False := by decide
  norm_num [Game.update, read_keys, judge, press_loop, press_step, expiry, Game.fresh,
    hit_range, particle_pass, particle_loop, Vec2.add, Vec2.mul_scalar, hne]

/-- C6, amended: with the cursor on a note at `1.0` (`hit_range = 0.1`), a
frame at `elapsed = 1.0` whose only press is of the other type is rejected: the
press loop changes neither score nor cursor. The expiry test of the same
`Game::update` then fires (`1.0 > 0.95`): after the update the score is
unchanged, one particle is spawned and `current_note` is one more than
before. -/
theorem mismatched_press_then_expiry (g : Game) (f : Frame) (note : Note) (ty : NoteType)
    (hcur : g.map[g.current_note]? = some note) (htime : note.time = 1)
    (helapsed : f.elapsed = 1)
    (hpressed : (read_keys g.inputs f.elapsed f.keys).2 = [ty]) (hty : ty ≠ note.type) :
    press_loop f.elapsed { g with inputs := (read_keys g.inputs f.elapsed f.keys).1 } [ty] =
        .ok { g with inputs := (read_keys g.inputs f.elapsed f.keys).1 } ∧
      ∃ g1, g.update f = .ok g1 ∧ g1.score = g.score ∧
        g1.current_note = g.current_note + 1 ∧
        g1.particles = particle_pass f.elapsed f.delta_time g.particles ++
          [⟨⟨f.elapsed, f.delta_time⟩, ⟨0, 1⟩, 1, note.type, f.elapsed⟩] := by
  have hlt : g.current_note < g.map.length := (List.getElem?_eq_some_iff.mp hcur).1
  have hp := press_loop_single f.elapsed
    { g with inputs := (read_keys g.inputs f.elapsed f.keys).1 } ty note hcur
  rw [if_neg (fun h => hty h.1)] at hp
  refine ⟨hp, ?_⟩
  have hexp : f.elapsed > note.time - hit_range / 2 := by
    rw [helapsed, htime]
    norm_num [hit_range]
  unfold Game.update
  simp only [hpressed]
  unfold judge
  rw [if_pos hlt]
  simp only [hp, expiry, hcur]
  rw [if_pos hexp]
  exact ⟨_, rfl, rfl, rfl, particle_pass_spawned _ _ _ _⟩

/-- C6, amended, at a fresh game over `[don at 1.0]` with a `kat` press. -/
theorem mismatched_press_then_expiry_witness :
    ∃ g1, (Game.fresh [⟨1, .don⟩]).update ⟨1, ⟨false, false, true, false⟩, 1 / 60⟩ = .ok g1 ∧
      g1.score = 0 ∧ g1.current_note = 1 := by
  obtain ⟨g1, h1, h2, h3, _⟩ := (mismatched_press_then_expiry (Game.fresh [⟨1, .don⟩])
    ⟨1, ⟨false, false, true, false⟩, 1 / 60⟩ ⟨1, .don⟩ .kat rfl rfl rfl
    (by simp [read_keys]) (by decide)).2
  exact ⟨g1, h1, h2, h3⟩

/-- A round of the press loop that returns has read inside the map; it keeps
the map and moves the cursor forward by at most one. -/
theorem press_step_ok (elapsed : ℚ) (g g1 : Game) (ty : NoteType)
    (h : press_step elapsed g ty = .ok g1) :
    g1.map = g.map ∧ g.current_note ≤ g1.current_note ∧
      g1.current_note ≤ g.current_note + 1 ∧ g.current_note < g.map.length := by
  cases hcur : g.map[g.current_note]? with
  | none => simp [press_step, hcur] at h
  | some note =>
    have hlt : g.current_note < g.map.length := (List.getElem?_eq_some_iff.mp hcur).1
    rw [press_step_eq elapsed g ty note hcur] at h
    split at h
    · cases h
      exact ⟨rfl, Nat.le_succ _, Nat.le_refl _, hlt⟩
    · cases h
      exact ⟨rfl, Nat.le_refl _, Nat.le_succ _, hlt⟩

/-- A press loop that returns keeps the map, never moves the cursor back and
leaves it at most at the end of the map. -/
theorem press_loop_ok (elapsed : ℚ) (pressed : List NoteType) (g g1 : Game)
    (h : press_loop elapsed g pressed = .ok g1) (hlen : g.current_note ≤ g.map.length) :
    g1.map = g.map ∧ g.current_note ≤ g1.current_note ∧ g1.current_note ≤ g1.map.length := by
  induction pressed generalizing g with
  | nil =>
    simp only [press_loop, Except.ok.injEq] at h
    subst h
    exact ⟨rfl, Nat.le_refl _, hlen⟩
  | cons ty rest ih =>
    unfold press_loop at h
    cases hs : press_step elapsed g ty with
    | error e => simp [hs] at h
    | ok g2 =>
      simp only [hs] at h
      obtain ⟨hm, hle, hle1, hlt⟩ := press_step_ok elapsed g g2 ty hs
      obtain ⟨hm2, hle2, hlen2⟩ := ih g2 h (by rw [hm]; omega)
      exact ⟨hm2.trans hm, Nat.le_trans hle hle2, hlen2⟩

/-- An expiry test that returns has read inside the map; it keeps the map and
leaves the cursor in place or one further, at most at the end of the map. -/
theorem expiry_ok (elapsed : ℚ) (g g1 : Game) (h : expiry elapsed g = .ok g1) :
    g1.map = g.map ∧ g.current_note ≤ g1.current_note ∧ g1.current_note ≤ g1.map.length := by
  cases hcur : g.map[g.current_note]? with
  | none => simp [expiry, hcur] at h
  | some note =>
    have hlt : g.current_note < g.map.length := (List.getElem?_eq_some_iff.mp hcur).1
    simp only [expiry, hcur] at h
    split at h
    · cases h
      exact ⟨rfl, Nat.le_succ _, hlt⟩
    · cases h
      exact ⟨rfl, Nat.le_refl _, Nat.le_of_lt hlt⟩

/-- A call of `Game::update` that reads only inside the map keeps the map,
never moves the cursor back and keeps it at most at the end of the map. -/
theorem update_ok_cursor (g g1 : Game) (f : Frame) (h : g.update f = .ok g1)
    (hlen : g.current_note ≤ g.map.length) :
    g1.map = g.map ∧ g.current_note ≤ g1.current_note ∧ g1.current_note ≤ g1.map.length := by
  unfold Game.update at h
  cases hj : judge f.elapsed (read_keys g.inputs f.elapsed f.keys).2
      { g with inputs := (read_keys g.inputs f.elapsed f.keys).1 } with
  | error e => simp [hj] at h
  | ok g2 =>
    simp only [hj, Except.ok.injEq] at h
    subst h
    show g2.map = g.map ∧ g.current_note ≤ g2.current_note ∧ g2.current_note ≤ g2.map.length
    unfold judge at hj
    split at hj
    · cases hp : press_loop f.elapsed { g with inputs := (read_keys g.inputs f.elapsed f.keys).1 }
          (read_keys g.inputs f.elapsed f.keys).2 with
      | error e => simp [hp] at hj
      | ok g3 =>
        simp only [hp] at hj
        obtain ⟨hm3, hle3, _⟩ := press_loop_ok _ _ _ _ hp hlen
        obtain ⟨hm2, hle2, hlen2⟩ := expiry_ok _ _ _ hj
        exact ⟨hm2.trans hm3, Nat.le_trans hle3 hle2, hlen2⟩
    · cases hj
      exact ⟨rfl, Nat.le_refl _, hlen⟩

/-- Over a run of frames in which every `Game::update` reads only inside the
map, the cursor never moves back and stays at most at the end of the map. -/
theorem run_ok_cursor (frames : List Frame) (g g1 : Game) (h : Game.run g frames = .ok g1)
    (hlen : g.current_note ≤ g.map.length) :
    g1.map = g.map ∧ g.current_note ≤ g1.current_note ∧ g1.current_note ≤ g1.map.length := by
  induction frames generalizing g with
  | nil =>
    simp only [Game.run, Except.ok.injEq] at h
    subst h
    exact ⟨rfl, Nat.le_refl _, hlen⟩
  | cons f rest ih =>
    unfold Game.run at h
    cases hu : g.update f with
    | error e => simp [hu] at h
    | ok g2 =>
      simp only [hu] at h
      obtain ⟨hm, hle, hl⟩ := update_ok_cursor g g2 f hu hlen
      obtain ⟨hm2, hle2, hl2⟩ := ih g2 h hl
      exact ⟨hm2.trans hm, Nat.le_trans hle hle2, hl2⟩

/-- A run followed by one more frame. -/
theorem run_snoc (frames : List Frame) (g : Game) (f : Frame) :
    Game.run g (frames ++ [f]) =
      match Game.run g frames with
      | .error e => .error e
      | .ok g1 => g1.update f := by
  induction frames generalizing g with
  | nil =>
    simp only [List.nil_append, Game.run]
    cases g.update f <;> rfl
  | cons f0 rest ih =>
    simp only [List.cons_append, Game.run]
    cases g.update f0 with
    | error e => rfl
    | ok g2 => exact ih g2

/-- A frame without keys at the time of the note under the cursor moves the
cursor on by one and keeps the map. -/
theorem update_at_note_time (g : Game) (note : Note)
    (hcur : g.map[g.current_note]? = some note) :
    ∃ g1, g.update ⟨note.time, ⟨false, false, false, false⟩, 0⟩ = .ok g1 ∧
      g1.current_note = g.current_note + 1 ∧ g1.map = g.map := by
  have hj := judge_no_press note.time g note hcur
  rw [if_pos (by norm_num [hit_range])] at hj
  have hg : ({ g with inputs := g.inputs } : Game) = g := rfl
  unfold Game.update
  simp only [read_keys_none, hg, hj]
  exact ⟨_, rfl, rfl, rfl⟩

/-- Every cursor position up to the end of the map is reached from a fresh
game by some run of frames. -/
theorem cursor_reachable (map : List Note) (k : Nat) (hk : k ≤ map.length) :
    ∃ frames g, Game.run (Game.fresh map) frames = .ok g ∧ g.current_note = k ∧
      g.map = map := by
  induction k with
  | zero => exact ⟨[], Game.fresh map, rfl, rfl, rfl⟩
  | succ n ih =>
    obtain ⟨frames, g, hrun, hcn, hmap⟩ := ih (Nat.le_of_succ_le hk)
    have hlt : g.current_note < g.map.length := by rw [hcn, hmap]; exact hk
    obtain ⟨g1, hu, hc1, hm1⟩ := update_at_note_time g g.map[g.current_note]
      (List.getElem?_eq_getElem hlt)
    refine ⟨frames ++ [⟨g.map[g.current_note].time, ⟨false, false, false, false⟩, 0⟩], g1, ?_,
      by rw [hc1, hcn], hm1.trans hmap⟩
    rw [run_snoc, hrun]
    exact hu

/-- With the cursor on the last note, a frame whose only press has the note's
type and a normalized offset in `[0, 1)` makes the press loop return with the cursor at
`len(map)`, and the expiry test then reads `map[len(map)]`. -/
theorem last_note_hit_expiry_read (g : Game) (f : Frame) (note : Note)
    (hcur : g.map[g.current_note]? = some note) (hlast : g.current_note + 1 = g.map.length)
    (hpressed : (read_keys g.inputs f.elapsed f.keys).2 = [note.type])
    (hlo : 0 ≤ hit_normalized f.elapsed note.time)
    (hhi : hit_normalized f.elapsed note.time < 1) :
    (∃ gp, press_loop f.elapsed { g with inputs := (read_keys g.inputs f.elapsed f.keys).1 }
        [note.type] = .ok gp ∧ gp.current_note = g.map.length ∧ gp.map = g.map) ∧
      g.update f = .error (.expiry_read g.map.length) := by
  have hlt : g.current_note < g.map.length := (List.getElem?_eq_some_iff.mp hcur).1
  have hp := press_loop_single f.elapsed
    { g with inputs := (read_keys g.inputs f.elapsed f.keys).1 } note.type note hcur
  rw [if_pos ⟨rfl, hlo, hhi⟩] at hp
  refine ⟨⟨_, hp, hlast, rfl⟩, ?_⟩
  have hnone : g.map[g.current_note + 1]? = none := by
    rw [List.getElem?_eq_none_iff]
    omega
  rw [hlast] at hnone
  unfold Game.update
  simp only [hpressed]
  unfold judge
  rw [if_pos hlt]
  simp only [hp, expiry, hnone, hlast]

/-- The map built by the constructor has a hundred notes. -/
theorem constructor_map_length : Game.constructor_map.length = 100 := by
  simp [Game.constructor_map]

/-- Every note of the constructor's map is a `don`. -/
theorem constructor_map_type (i : Nat) (note : Note)
    (h : Game.constructor_map[i]? = some note) : note.type = NoteType.don := by
  have hmem : note ∈ Game.constructor_map := List.mem_iff_getElem?.mpr ⟨i, h⟩
  unfold Game.constructor_map at hmem
  obtain ⟨j, _, rfl⟩ := List.mem_map.mp hmem
  rfl

/-- C4 fails on the code: from the constructed game (the hundred-note map,
`current_note = 0`) there is a run of frames whose last `Game::update` hits the
last note, so that the cursor reaches `len(map) = 100`, and then reads
`map[100]` in the expiry test, outside the map. The same on the one-note map
`[don at 1.0]` with one frame at `elapsed = 1.0` and a `don` key; with both
`don` keys in that frame the second round of the press loop already reads
`map[1]`. No in-range cursor results from these runs. -/
theorem final_note_hit_leaves_map :
    (∃ frames : List Frame,
        Game.run (Game.fresh Game.constructor_map) frames = .error (.expiry_read 100)) ∧
      Game.run (Game.fresh [⟨1, .don⟩]) [⟨1, ⟨true, false, false, false⟩, 1 / 60⟩] =
        .error (.expiry_read 1) ∧
      Game.run (Game.fresh [⟨1, .don⟩]) [⟨1, ⟨true, true, false, false⟩, 1 / 60⟩] =
        .error (.press_read 1) ∧
      (Game.fresh [⟨1, .don⟩]).current_note = 0 ∧ (Game.fresh [⟨1, .don⟩]).map.length = 1 := by
  refine ⟨?_, ?_, ?_, rfl, rfl⟩
  · obtain ⟨frames, g, hrun, hcn, hmap⟩ := cursor_reachable Game.constructor_map 99
      (by rw [constructor_map_length]; decide)
    have hlen : g.map.length = 100 := by rw [hmap, constructor_map_length]
    have hlt : g.current_note < g.map.length := by omega
    have hcur : g.map[g.current_note]? = some g.map[g.current_note] :=
      List.getElem?_eq_getElem hlt
    have hty : g.map[g.current_note].type = NoteType.don :=
      constructor_map_type g.current_note _ (by rw [← hmap]; exact hcur)
    have hn := hit_normalized_self g.map[g.current_note].time
    have h := (last_note_hit_expiry_read g
      ⟨g.map[g.current_note].time, ⟨true, false, false, false⟩, 0⟩ g.map[g.current_note]
      hcur (by omega) (by rw [hty]; simp [read_keys]) (by rw [hn]; norm_num)
      (by rw [hn]; norm_num)).2
    refine ⟨frames ++ [⟨g.map[g.current_note].time, ⟨true, false, false, false⟩, 0⟩], ?_⟩
    rw [run_snoc, hrun]
    simp only [h, hlen]
  · have hn := hit_normalized_self 1
    have h := (last_note_hit_expiry_read (Game.fresh [⟨1, .don⟩])
      ⟨1, ⟨true, false, false, false⟩, 1 / 60⟩ ⟨1, .don⟩ rfl rfl (by simp [read_keys])
      (by rw [hn]; norm_num) (by rw [hn]; norm_num)).2
    simp only [Game.run, h]
    rfl
  · have hn := hit_normalized_self 1
    have hs1 := press_step_eq 1
      { Game.fresh [⟨1, .don⟩] with inputs := [⟨.don_left, 1⟩, ⟨.don_right, 1⟩] } .don
      ⟨1, .don⟩ rfl
    rw [if_pos ⟨rfl, by rw [hn]; norm_num, by rw [hn]; norm_num⟩] at hs1
    have hk : read_keys (Game.fresh [⟨1, .don⟩]).inputs 1 ⟨true, true, false, false⟩ =
        ([⟨.don_left, 1⟩, ⟨.don_right, 1⟩], [.don, .don]) := by
      simp [read_keys, Game.fresh]
    have hj : judge 1 [.don, .don]
        { Game.fresh [⟨1, .don⟩] with inputs := [⟨.don_left, 1⟩, ⟨.don_right, 1⟩] } =
        .error (.press_read 1) := by
      unfold judge
      rw [if_pos (by simp [Game.fresh])]
      simp only [press_loop, hs1]
      rfl
    simp only [Game.run, Game.update, hk, hj]

/-- C10: there is a game state reached from the constructed game (the
hundred-note map, `current_note = 0`) by a run of `Game::update` frames, with
the cursor on the last note of the non-empty map, and a frame whose only press
has that note's type inside its hit window, for which the press loop leaves
the cursor at `len(map)` and the expiry test then indexes `map` at
`len(map)`, past the end: the bounds test made before the press loop is not
made again. -/
theorem expiry_test_reads_past_end :
    ∃ (frames : List Frame) (g : Game) (f : Frame) (note : Note),
      Game.run (Game.fresh Game.constructor_map) frames = .ok g ∧
      g.map ≠ [] ∧ g.current_note + 1 = g.map.length ∧
      g.map[g.current_note]? = some note ∧
      (read_keys g.inputs f.elapsed f.keys).2 = [note.type] ∧
      note.time - hit_range / 2 ≤ f.elapsed ∧ f.elapsed < note.time + hit_range / 2 ∧
      g.current_note < g.map.length ∧
      (∃ gp, press_loop f.elapsed { g with inputs := (read_keys g.inputs f.elapsed f.keys).1 }
        [note.type] = .ok gp ∧ gp.current_note = g.map.length ∧ gp.map = g.map) ∧
      g.update f = .error (.expiry_read g.map.length) := by
  obtain ⟨frames, g, hrun, hcn, hmap⟩ := cursor_reachable Game.constructor_map 99
    (by rw [constructor_map_length]; decide)
  have hlen : g.map.length = 100 := by rw [hmap, constructor_map_length]
  have hlt : g.current_note < g.map.length := by omega
  have hcur : g.map[g.current_note]? = some g.map[g.current_note] :=
    List.getElem?_eq_getElem hlt
  have hty : g.map[g.current_note].type = NoteType.don :=
    constructor_map_type g.current_note _ (by rw [← hmap]; exact hcur)
  have hpressed : (read_keys g.inputs g.map[g.current_note].time
      ⟨true, false, false, false⟩).2 = [g.map[g.current_note].type] := by
    rw [hty]
    simp [read_keys]
  have hlo : g.map[g.current_note].time - hit_range / 2 ≤ g.map[g.current_note].time := by
    norm_num [hit_range]
  have hhi : g.map[g.current_note].time < g.map[g.current_note].time + hit_range / 2 := by
    norm_num [hit_range]
  have hne : g.map ≠ [] := by
    intro h0
    rw [h0] at hlen
    simp at hlen
  have hn := hit_normalized_self g.map[g.current_note].time
  have h := last_note_hit_expiry_read g
    ⟨g.map[g.current_note].time, ⟨true, false, false, false⟩, 0⟩ g.map[g.current_note]
    hcur (by omega) hpressed (by rw [hn]; norm_num) (by rw [hn]; norm_num)
  exact ⟨frames, g, ⟨g.map[g.current_note].time, ⟨true, false, false, false⟩, 0⟩,
    g.map[g.current_note], hrun, hne, by omega, hcur, hpressed, hlo, hhi, hlt, h.1, h.2⟩

/-- The collision scan answers whether some note lies strictly within
`collision_range` of the candidate time. -/
theorem collision_iff (map : List Note) (time collision_range : ℚ) :
    collision map time collision_range = true ↔
      ∃ n ∈ map, |n.time - time| < collision_range := by
  induction map with
  | nil => simp [collision]
  | cons a rest ih =>
    unfold collision
    by_cases h : |a.time - time| < collision_range
    · simp [h]
    · simp [h, ih]

/-- For every map, `add_note` puts the note at one position of the map and
moves nothing else. -/
theorem add_note_insert (map : List Note) (n : Note) :
    ∃ pre post, map = pre ++ post ∧ add_note map n = pre ++ n :: post :=
  ⟨_, _, (List.take_append_drop _ map).symm, rfl⟩

/-- The map after the click handler for a candidate time. -/
theorem place_map (e : Editor) (time elapsed : ℚ) :
    (e.place time elapsed).map =
      if collision e.map time e.collision_range then e.map
      else add_note e.map ⟨time, e.note_type⟩ := by
  unfold Editor.place
  by_cases hc : collision e.map time e.collision_range = true
  · simp [hc]
  · simp only [hc]
    split_ifs <;> rfl

/-- Only the click handler of `Editor::update_editor` touches the map. -/
theorem update_editor_map (e : Editor) (f : EditorFrame) :
    (e.update_editor f).map = (e.click f).map := by
  have h1 : ∀ x : Editor, (x.toggle_type f).map = x.map := by
    intro x
    unfold Editor.toggle_type
    split
    · split <;> rfl
    · rfl
  have h2 : ∀ x : Editor, (x.toggle_pause f).map = x.map := by
    intro x
    unfold Editor.toggle_pause
    split
    · split <;> rfl
    · rfl
  have h3 : ∀ x : Editor, (x.audition f).map = x.map := by
    intro x
    unfold Editor.audition
    split
    · split
      · rfl
      · split <;> rfl
    · rfl
  show ((((e.click f).toggle_type f).toggle_pause f).audition f).map = (e.click f).map
  rw [h3, h2, h1]

/-- C8: on a click, with `t` the snapped candidate time, `update_editor` leaves
the map unchanged when some existing note has `|note.time - t| <
collision_range`, and otherwise inserts exactly one note, with time `t` and the
current `note_type`, at one position of the map. The same holds of the click
handler at every candidate time. With `quarter_interval = 0.1`,
`collision_range = 0.05` and a note at `1.0`, the candidate `1.02` is rejected
and the candidate `1.1` is accepted. -/
theorem click_inserts_unless_collision (e : Editor) (f : EditorFrame)
    (hclick : f.mouse_pressed = true) :
    ((∃ n ∈ e.map, |n.time - e.snap f| < e.collision_range) →
        (e.update_editor f).map = e.map) ∧
      ((¬ ∃ n ∈ e.map, |n.time - e.snap f| < e.collision_range) →
        (e.update_editor f).map = add_note e.map ⟨e.snap f, e.note_type⟩ ∧
        (e.update_editor f).map.length = e.map.length + 1 ∧
        ∃ pre post, e.map = pre ++ post ∧
          (e.update_editor f).map = pre ++ ⟨e.snap f, e.note_type⟩ :: post) ∧
      (∀ t elapsed : ℚ,
        ((∃ n ∈ e.map, |n.time - t| < e.collision_range) → (e.place t elapsed).map = e.map) ∧
        ((¬ ∃ n ∈ e.map, |n.time - t| < e.collision_range) →
          ∃ pre post, e.map = pre ++ post ∧
            (e.place t elapsed).map = pre ++ ⟨t, e.note_type⟩ :: post)) ∧
      (({ Editor.fresh .don with
          quarter_interval := 1 / 10, collision_range := 1 / 20, map := [⟨1, .kat⟩] } :
          Editor).place (102 / 100) 0).map = [⟨1, .kat⟩] ∧
      (({ Editor.fresh .don with
          quarter_interval := 1 / 10, collision_range := 1 / 20, map := [⟨1, .kat⟩] } :
          Editor).place (11 / 10) 0).map = [⟨1, .kat⟩, ⟨11 / 10, .don⟩] := by
  have hplace : ∀ t elapsed : ℚ,
      ((∃ n ∈ e.map, |n.time - t| < e.collision_range) → (e.place t elapsed).map = e.map) ∧
      ((¬ ∃ n ∈ e.map, |n.time - t| < e.collision_range) →
        (e.place t elapsed).map = add_note e.map ⟨t, e.note_type⟩) := by
    intro t elapsed
    rw [place_map]
    constructor
    · intro h
      rw [if_pos ((collision_iff _ _ _).mpr h)]
    · intro h
      rw [if_neg (fun hc => h ((collision_iff _ _ _).mp hc))]
  have hmap : (e.update_editor f).map = (e.place (e.snap f) f.elapsed).map := by
    rw [update_editor_map]
    unfold Editor.click
    rw [if_pos hclick]
  refine ⟨?_, ?_, ?_, ?_, ?_⟩
  · intro h
    rw [hmap]
    exact (hplace _ _).1 h
  · intro h
    have h1 := (hplace (e.snap f) f.elapsed).2 h
    rw [hmap, h1]
    exact ⟨rfl, add_note_length _ _, add_note_insert _ _⟩
  · intro t elapsed
    refine ⟨(hplace t elapsed).1, ?_⟩
    intro h
    rw [(hplace t elapsed).2 h]
    exact add_note_insert _ _
  · rw [place_map]
    norm_num [collision, Editor.fresh, abs_lt]
  · rw [place_map]
    norm_num [collision, Editor.fresh, abs_lt, add_note, upper_bound, upper_bound_loop]

/-- C8 on a 1280 x 960 screen: with the camera at `1.0`, offset `0`,
`quarter_interval = 0.1`, `collision_range = 0.05` and a note at `1.0`, a click
at pixel `704` snaps to `1.1` and the note is inserted. -/
theorem click_inserts_unless_collision_witness :
    (({ Editor.fresh .don with
        cam := ⟨⟨1, 0⟩, ⟨2, 3⟩⟩, offset := 0, quarter_interval := 1 / 10,
        collision_range := 1 / 20, map := [⟨1, .kat⟩] } : Editor).update_editor
      ⟨1, true, 704, 480, 1280, 960, false, false⟩).map = [⟨1, .kat⟩, ⟨11 / 10, .don⟩] := by
  have hsnap : ({ Editor.fresh .don with
        cam := ⟨⟨1, 0⟩, ⟨2, 3⟩⟩, offset := 0, quarter_interval := 1 / 10,
        collision_range := 1 / 20, map := [⟨1, .kat⟩] } : Editor).snap
      ⟨1, true, 704, 480, 1280, 960, false, false⟩ = 11 / 10 := by
    have hfl : ⌊(23 : ℚ) / 2⌋ = 11 := by
      rw [Int.floor_eq_iff]
      norm_num
    norm_num [Editor.snap, Editor.fresh, Cam.screen_to_world, Vec2.sub, Vec2.mul, c_round, hfl]
  have h := (click_inserts_unless_collision ({ Editor.fresh .don with
        cam := ⟨⟨1, 0⟩, ⟨2, 3⟩⟩, offset := 0, quarter_interval := 1 / 10,
        collision_range := 1 / 20, map := [⟨1, .kat⟩] } : Editor)
      ⟨1, true, 704, 480, 1280, 960, false, false⟩ rfl).2.1
      (by
        rw [hsnap]
        rintro ⟨n, hn, hlt⟩
        have hn1 : n = ⟨1, .kat⟩ := by simpa [Editor.fresh] using hn
        subst hn1
        rw [abs_lt] at hlt
        norm_num [Editor.fresh] at hlt)
  rw [h.1, hsnap]
  norm_num [Editor.fresh, add_note, upper_bound, upper_bound_loop]

/-- The click handler keeps a time-sorted map time-sorted and does not touch
the pause flag. -/
theorem click_sorted_paused (e : Editor) (f : EditorFrame) (hs : time_sorted e.map) :
    time_sorted (e.click f).map ∧ (e.click f).paused = e.paused := by
  unfold Editor.click
  split
  · constructor
    · rw [place_map]
      split
      · exact hs
      · exact add_note_sorted _ _ hs
    · unfold Editor.place
      split_ifs <;> rfl
  · exact ⟨hs, rfl⟩

/-- The index that the resume branch stores: on a time-sorted map the notes
before it are not after `elapsed`, the notes from it on are, and it is the
length of the longest prefix of notes with `time ≤ elapsed`. -/
theorem upper_bound_elapsed (map : List Note) (elapsed : ℚ) (hs : time_sorted map) :
    upper_bound map (fun n => decide (elapsed < n.time)) ≤ map.length ∧
      (∀ n ∈ map.take (upper_bound map (fun n => decide (elapsed < n.time))),
        n.time ≤ elapsed) ∧
      (∀ n ∈ map.drop (upper_bound map (fun n => decide (elapsed < n.time))),
        elapsed < n.time) ∧
      upper_bound map (fun n => decide (elapsed < n.time)) =
        (map.takeWhile (fun n => decide (n.time ≤ elapsed))).length := by
  have hp := upper_bound_partition map (fun n => decide (elapsed < n.time))
    (time_sorted_partition map elapsed hs)
  have hle := upper_bound_le_length map (fun n => decide (elapsed < n.time))
  have h1 : ∀ n ∈ map.take (upper_bound map (fun n => decide (elapsed < n.time))),
      n.time ≤ elapsed := by
    intro n hn
    simpa using hp.1 n hn
  have h2 : ∀ n ∈ map.drop (upper_bound map (fun n => decide (elapsed < n.time))),
      elapsed < n.time := by
    intro n hn
    simpa using hp.2 n hn
  refine ⟨hle, h1, h2, ?_⟩
  have hsplit := takeWhile_dropWhile_split (fun n => decide (n.time ≤ elapsed))
    (map.take (upper_bound map (fun n => decide (elapsed < n.time))))
    (map.drop (upper_bound map (fun n => decide (elapsed < n.time))))
    (by intro x hx; simpa using h1 x hx)
    (by intro x hx; simpa using h2 x hx)
  rw [List.take_append_drop] at hsplit
  rw [hsplit.1, List.length_take, Nat.min_eq_left hle]

/-- C9: on a time-sorted editor map, a frame with the space key while the
editor is paused resumes playback and leaves `current_note` at the index of
the first note with `time > elapsed` (`len(map)` when there is none) of the map
as it is after that frame: every note before the new `current_note` has
`time ≤ elapsed`, every note at or after it has `time > elapsed`. -/
theorem resume_sets_cursor (e : Editor) (f : EditorFrame) (hs : time_sorted e.map)
    (hpaused : e.paused = true) (hspace : f.key_space = true) :
    ∃ k : Nat, (e.update_editor f).current_note = (k : Int) ∧
      (e.update_editor f).paused = false ∧
      k ≤ (e.update_editor f).map.length ∧
      (∀ n ∈ (e.update_editor f).map.take k, n.time ≤ f.elapsed) ∧
      (∀ n ∈ (e.update_editor f).map.drop k, f.elapsed < n.time) ∧
      k = ((e.update_editor f).map.takeWhile (fun n => decide (n.time ≤ f.elapsed))).length := by
  obtain ⟨hcs, hcp⟩ := click_sorted_paused e f hs
  have hub := upper_bound_elapsed (e.click f).map f.elapsed hcs
  have htt : ((e.click f).toggle_type f).map = (e.click f).map ∧
      ((e.click f).toggle_type f).paused = (e.click f).paused := by
    unfold Editor.toggle_type
    split_ifs <;> exact ⟨rfl, rfl⟩
  have htp : (((e.click f).toggle_type f).toggle_pause f) =
      { ((e.click f).toggle_type f) with
        current_note := (upper_bound (e.click f).map (fun n => decide (f.elapsed < n.time)) : Int),
        paused := false } := by
    unfold Editor.toggle_pause
    rw [if_pos hspace]
    simp only [htt.2, hcp, hpaused, if_true, htt.1, Bool.not_true]
  have hau : ((((e.click f).toggle_type f).toggle_pause f).audition f) =
      (((e.click f).toggle_type f).toggle_pause f) := by
    rw [htp]
    unfold Editor.audition
    simp only [htt.1, Int.toNat_ofNat]
    split
    · cases hm : (e.click f).map[upper_bound (e.click f).map
          (fun n => decide (f.elapsed < n.time))]? with
      | none => rfl
      | some n =>
        have hn : n ∈ (e.click f).map.drop (upper_bound (e.click f).map
            (fun n => decide (f.elapsed < n.time))) := by
          rw [List.mem_iff_getElem?]
          exact ⟨0, by rw [List.getElem?_drop]; simpa using hm⟩
        have hlt := hub.2.2.1 n hn
        simp only
        rw [if_neg (not_le.mpr hlt)]
    · rfl
  have hfin : (e.update_editor f).current_note =
        (upper_bound (e.click f).map (fun n => decide (f.elapsed < n.time)) : Int) ∧
      (e.update_editor f).paused = false := by
    show (((((e.click f).toggle_type f).toggle_pause f).audition f).current_note = _ ∧
      ((((e.click f).toggle_type f).toggle_pause f).audition f).paused = false)
    rw [hau, htp]
    exact ⟨rfl, rfl⟩
  rw [update_editor_map]
  exact ⟨_, hfin.1, hfin.2, hub.1, hub.2.1, hub.2.2.1, hub.2.2.2⟩

/-- C9 at the map `[1 kat, 2 don, 2 kat, 3 don]`, resumed at `elapsed = 2`:
the cursor is set to `3`. -/
theorem resume_sets_cursor_witness :
    ∃ k : Nat, (({ Editor.fresh .don with
        map := [⟨1, .kat⟩, ⟨2, .don⟩, ⟨2, .kat⟩, ⟨3, .don⟩] } : Editor).update_editor
        ⟨2, false, 0, 0, 1280, 960, false, true⟩).current_note = (k : Int) ∧ k = 3 := by
  obtain ⟨k, h1, _, _, _, _, h6⟩ := resume_sets_cursor
    ({ Editor.fresh .don with map := [⟨1, .kat⟩, ⟨2, .don⟩, ⟨2, .kat⟩, ⟨3, .don⟩] } : Editor)
    ⟨2, false, 0, 0, 1280, 960, false, true⟩ (by norm_num [time_sorted, Editor.fresh]) rfl rfl
  refine ⟨k, h1, ?_⟩
  rw [h6, update_editor_map]
  norm_num [Editor.click, Editor.fresh, List.takeWhile]

/-- The particle pass handles the last particle first and then the particles
in front of it: the last one is dropped when its age exceeds one second and
is kept, moved by its velocity, otherwise. -/
theorem particle_pass_snoc (elapsed delta_time : ℚ) (ps : List Particle) (p : Particle) :
    particle_pass elapsed delta_time (ps ++ [p]) =
      particle_pass elapsed delta_time ps ++
        (if elapsed - p.start > 1 then []
         else [{ p with position := p.position.add (p.velocity.mul_scalar delta_time) }]) := by
  unfold particle_pass
  rw [List.length_append, List.length_singleton, particle_loop]
  rw [List.getElem?_append_right (Nat.le_refl _)]
  simp only [Nat.sub_self, List.getElem?_cons_zero]
  rw [List.set_append_right _ _ (Nat.le_refl _)]
  simp only [Nat.sub_self, List.set_cons_zero]
  by_cases hage : elapsed - p.start > 1
  · rw [if_pos hage, if_pos hage, List.eraseIdx_append_of_length_le (Nat.le_refl _)]
    simp
  · rw [if_neg hage, if_neg hage, particle_loop_append _ _ _ _ _ (Nat.le_refl _)]

/-- C11: for every particle list and every elapsed time, the particle pass of
`Game::update` leaves exactly the particles with `elapsed - start ≤ 1`, in
their original order, each moved by `velocity * delta_time` and otherwise
unchanged: a particle is removed if and only if its age exceeds one second,
although the loop erases while it walks the vector backwards. -/
theorem particle_pass_keeps_young (elapsed delta_time : ℚ) (ps : List Particle) :
    particle_pass elapsed delta_time ps =
        (ps.filter (fun p => decide (elapsed - p.start ≤ 1))).map
          (fun p => { p with position := p.position.add (p.velocity.mul_scalar delta_time) }) ∧
      (particle_pass elapsed delta_time ps).map Particle.start =
        (ps.map Particle.start).filter (fun s => decide (elapsed - s ≤ 1)) ∧
      (∀ p ∈ particle_pass elapsed delta_time ps, elapsed - p.start ≤ 1) ∧
      (particle_pass elapsed delta_time ps).length =
        ps.countP (fun p => decide (elapsed - p.start ≤ 1)) := by
  have hmain : particle_pass elapsed delta_time ps =
      (ps.filter (fun p => decide (elapsed - p.start ≤ 1))).map
        (fun p => { p with position := p.position.add (p.velocity.mul_scalar delta_time) }) := by
    induction ps using List.reverseRecOn with
    | nil => rfl
    | append_singleton xs p ih =>
      rw [particle_pass_snoc, ih, List.filter_append, List.map_append]
      by_cases hage : elapsed - p.start > 1
      · have hk : ¬ elapsed - p.start ≤ 1 := not_le.mpr hage
        simp [hage, hk, List.filter]
      · have hk : elapsed - p.start ≤ 1 := not_lt.mp hage
        simp [hage, hk, List.filter]
  refine ⟨hmain, ?_, ?_, ?_⟩
  · rw [hmain, List.map_map, List.filter_map]
    rfl
  · intro p hp
    rw [hmain] at hp
    obtain ⟨q, hq, rfl⟩ := List.mem_map.mp hp
    have := (List.mem_filter.mp hq).2
    simpa using this
  · rw [hmain, List.length_map, List.countP_eq_length_filter]

end Taiko
